import Mathlib

set_option maxRecDepth 10000

namespace HaliteBot

/-- Cell coordinates.  Python keys its per-turn dictionaries (`Grid.grid`,
the open/closed sets of `walk_set`) by `Square`, whose dataclass equality and
hash are restricted to the coordinate fields `x, y` (hlt.py lines 38-47), so a
key is exactly a coordinate pair. -/
abbrev Pos : Type := Nat × Nat

/-- hlt.py line 30: `NORTH, EAST, SOUTH, WEST, STILL = range(5)`. -/
def NORTH : Nat := 0

/-- hlt.py line 30. -/
def EAST : Nat := 1

/-- hlt.py line 30. -/
def SOUTH : Nat := 2

/-- hlt.py line 30. -/
def WEST : Nat := 3

/-- hlt.py line 30. -/
def STILL : Nat := 4

/-- hlt.py lines 38-47: the `Square` dataclass with coordinates, owner,
strength and production. -/
structure Square where
  x : Nat
  y : Nat
  owner : Nat
  strength : Nat
  production : Nat
deriving DecidableEq, Repr

/-- hlt.py lines 82-85: a `Move` is a square together with a direction. -/
structure Move where
  square : Square
  direction : Nat
deriving DecidableEq, Repr

/-- hlt.py lines 88-132: the board.  `get_frame` (lines 106-132) rebuilds
`contents` so that the square stored at row `y`, column `x` is
`Square(x, y, owner, strength, production)`; we therefore represent a board by
its dimensions together with the three per-coordinate attribute tables, and
derive `contents` from them. -/
structure GameMap where
  width : Nat
  height : Nat
  ownerAt : Nat → Nat → Nat
  strengthAt : Nat → Nat → Nat
  productionAt : Nat → Nat → Nat

/-- hlt.py lines 118-132: `contents[y][x] = Square(x, y, owner, strength,
production)`. -/
def GameMap.contents (g : GameMap) (y x : Nat) : Square :=
  Square.mk x y (g.ownerAt x y) (g.strengthAt x y) (g.productionAt x y)

/-- hlt.py lines 145-151: the `n = 1` delta table
`((0,-1),(1,0),(0,1),(-1,0),(0,0))` with the `(0,0)` entry dropped by the
`include_self or dx or dy` filter (line 162), leaving North, East, South,
West in order. -/
def cardinal_combos : List (Int × Int) := [(0, -1), (1, 0), (0, 1), (-1, 0)]

/-- hlt.py lines 159-163: the indexing
`contents[(square.y + dy) % height][(square.x + dx) % width]`.  Python `%` on
ints with a positive modulus agrees with `Int.emod`. -/
def GameMap.wrapSquare (g : GameMap) (x y : Int) : Square :=
  g.contents ((y % (g.height : Int)).toNat) ((x % (g.width : Int)).toNat)

/-- hlt.py lines 138-163: `neighbors(square)` with the default `n = 1` and
`include_self = False`, as used throughout bot.py. -/
def GameMap.neighbors (g : GameMap) (square : Square) : List Square :=
  cardinal_combos.map (fun d => g.wrapSquare ((square.x : Int) + d.1) ((square.y : Int) + d.2))

/-- hlt.py lines 165-170: `get_target` looks the direction up in the delta
tuple `((0,-1),(1,0),(0,1),(-1,0),(0,0))` and wraps; a direction outside
`0..4` would raise in Python and is given a harmless default here. -/
def GameMap.get_target (g : GameMap) (square : Square) (direction : Nat) : Square :=
  let d := [((0 : Int), (-1 : Int)), (1, 0), (0, 1), (-1, 0), (0, 0)].getD direction (0, 0)
  g.wrapSquare ((square.x : Int) + d.1) ((square.y : Int) + d.2)

/-- hlt.py lines 172-180: toroidal Manhattan distance, per axis the minimum of
`abs(a - b)`, `a + size - b` and `b + size - a`. -/
def GameMap.get_distance (g : GameMap) (sq1 sq2 : Square) : Int :=
  min ((((sq1.x : Int) - (sq2.x : Int)).natAbs : Int))
      (min ((sq1.x : Int) + (g.width : Int) - (sq2.x : Int))
        ((sq2.x : Int) + (g.width : Int) - (sq1.x : Int)))
    + min ((((sq1.y : Int) - (sq2.y : Int)).natAbs : Int))
      (min ((sq1.y : Int) + (g.height : Int) - (sq2.y : Int))
        ((sq2.y : Int) + (g.height : Int) - (sq1.y : Int)))

/-- hlt.py lines 208-216: `translate_cardinal(direction) = (direction + 1) % 5`. -/
def translate_cardinal (direction : Nat) : Nat :=
  (direction + 1) % 5

/-- Modelled from the spec: the inverse of the fixed direction-mapping table of
spec section 6 (external Stay=0, North=1, East=2, South=3, West=4 back to
internal North=0, East=1, South=2, West=3, Stay=4); no such function exists in
the source, the table is fixed by the spec's round-trip property. -/
def external_to_internal (direction : Nat) : Nat :=
  match direction with
  | 0 => 4
  | 1 => 0
  | 2 => 1
  | 3 => 2
  | 4 => 3
  | d => d

/-- hlt.py lines 38-47: the generated dataclass `__eq__` compares only the
fields marked `compare=True`, namely `x` and `y`. -/
def Square.pyEq (a b : Square) : Bool :=
  a.x == b.x && a.y == b.y

/-- hlt.py lines 38-47: the generated frozen-dataclass `__hash__` hashes the
tuple of the `compare=True` fields, namely `(x, y)`; the hash therefore
factors through this key. -/
def Square.pyHashKey (a : Square) : Nat × Nat :=
  (a.x, a.y)

/-- hlt.py lines 49-51: `is_mine`, read through the board tables at the
square's coordinates (every square handled by bot.py is the board's square at
its own coordinates). -/
def GameMap.is_mine (g : GameMap) (myID : Nat) (p : Pos) : Bool :=
  g.ownerAt p.1 p.2 == myID

/-- hlt.py lines 53-55: `is_environment` (`ENVIRONMENT_ID = 0`, line 89). -/
def GameMap.is_environment (g : GameMap) (p : Pos) : Bool :=
  g.ownerAt p.1 p.2 == 0

/-- hlt.py lines 57-59: `owner not in (ENVIRONMENT_ID, myID)`. -/
def GameMap.is_other_player (g : GameMap) (myID : Nat) (p : Pos) : Bool :=
  !(g.ownerAt p.1 p.2 == 0) && !(g.ownerAt p.1 p.2 == myID)

/-- hlt.py lines 138-163 specialized to coordinates: the coordinate pairs of
the four cardinal neighbors, in the fixed order North, East, South, West. -/
def GameMap.posNeighbors (g : GameMap) (p : Pos) : List Pos :=
  cardinal_combos.map
    (fun d => ((((p.1 : Int) + d.1) % (g.width : Int)).toNat,
               (((p.2 : Int) + d.2) % (g.height : Int)).toNat))

/-- hlt.py lines 73-75: `is_inner_border`: mine with at least one non-mine
neighbor. -/
def GameMap.is_inner_border (g : GameMap) (myID : Nat) (p : Pos) : Bool :=
  g.is_mine myID p && (g.posNeighbors p).any (fun n => !(g.is_mine myID n))

/-- bot.py lines 26-27 together with hlt.py lines 134-136: `game_map`
iteration is row-major, `y` outer and `x` inner. -/
def GameMap.boardPosList (g : GameMap) : List Pos :=
  ((List.range g.height).map (fun y => (List.range g.width).map (fun x => (x, y)))).flatten

/-- A coordinate pair lying on the board. -/
def GameMap.onBoard (g : GameMap) (p : Pos) : Prop :=
  p.1 < g.width ∧ p.2 < g.height

instance (g : GameMap) (p : Pos) : Decidable (g.onBoard p) := by
  unfold GameMap.onBoard; infer_instance

/-- Python `min` over a nonempty sequence of ints (bot.py lines 169, 183);
the empty case never arises (neighbor lists have four entries). -/
def listMin : List Int → Int
  | [] => 0
  | x :: xs => xs.foldl min x

/-- bot.py lines 132-136: initial value of `cells_to_border_grid`: sentinel
9999 for mine or positive-production squares, 0 otherwise (`square.production`
is truthy exactly when nonzero). -/
def distance_to_border_grid_init (g : GameMap) (myID : Nat) (p : Pos) : Int :=
  if g.is_mine myID p = true ∨ g.productionAt p.1 p.2 ≠ 0 then 9999 else 0

/-- bot.py line 203: `cells_to_enemy_grid` is initialized to 9999 everywhere. -/
def enemy_grid_init (_p : Pos) : Int :=
  9999

/-- bot.py line 145: the seed payload of `border_grid_set`: the summed
production of the environment neighbors. -/
def border_seed_key (g : GameMap) (p : Pos) : Nat :=
  (((g.posNeighbors p).filter (g.is_environment)).map (fun n => g.productionAt n.1 n.2)).sum

/-- Stable insertion of one element into a key-sorted list: the element goes
after every element of key less than or equal to its own, exactly the
placement Python's stable `sorted` produces. -/
def insertKeyed (k : Pos → Nat) (x : Pos) : List Pos → List Pos
  | [] => [x]
  | y :: ys => if k y ≤ k x then y :: insertKeyed k x ys else x :: y :: ys

/-- Stable sort by key ascending, mirroring Python's `sorted(..., key=...)`
(bot.py lines 140-152). -/
def sortByKey (k : Pos → Nat) (l : List Pos) : List Pos :=
  l.foldr (insertKeyed k) []

/-- bot.py lines 139-152: the seeds of the border field: every inner-border
square, sorted ascending (stably) by the summed production of environment
neighbors. -/
def border_grid_set (g : GameMap) (myID : Nat) : List Pos :=
  sortByKey (border_seed_key g) ((g.boardPosList).filter (g.is_inner_border myID))

/-- bot.py lines 155-156: the seeds of the enemy field: every square owned by
another player, in board iteration order. -/
def enemy_grid_set (g : GameMap) (myID : Nat) : List Pos :=
  (g.boardPosList).filter (g.is_other_player myID)

/-- bot.py line 64: `open_set |= {s: None for s in visit(current)}`: a key
already present keeps its position (the value update to `None` is invisible
here), a new key is appended; duplicates within the update keep their first
position. -/
def pushOpen (l : List Pos) : List Pos → List Pos
  | [] => l
  | s :: rest => pushOpen (if s ∈ l then l else l ++ [s]) rest

/-- bot.py line 68: the `bfs` pop policy `next(iter(i), None)`: the first
(oldest-inserted) key.  The `[]` case never arises: `walk_set` pops only from
a nonempty open set. -/
def fifoPick : List Pos → Pos
  | [] => (0, 0)
  | x :: _ => x

/-- bot.py line 76: the `dijkstras` pop policy `min(iter(i), key=min_by)`:
the first key attaining the minimal key value (Python `min` keeps the earliest
of equals). -/
def minByPick (key : Pos → Int) : List Pos → Pos
  | [] => (0, 0)
  | x :: xs => xs.foldl (fun b y => if key y < key b then y else b) x

/-- The per-turn traversal state of `walk_set` (bot.py lines 52-64): the open
set (insertion-ordered keys), the closed set, and the field grid the visit
callback mutates. -/
structure WState where
  openL : List Pos
  closed : List Pos
  grid : Pos → Int

/-- One iteration of the `while open_set` loop of `walk_set` (bot.py lines
58-64): pop the picked key; if it was already closed do nothing more,
otherwise close it, run the visit callback (which returns the updated grid
and the squares to expand) and merge the expansion into the open set. -/
def walk_set_step (pick : List Pos → Pos)
    (visit : (Pos → Int) → Pos → (Pos → Int) × List Pos) (st : WState) : WState :=
  if st.openL = [] then st
  else if pick st.openL ∈ st.closed then
    WState.mk (st.openL.erase (pick st.openL)) st.closed st.grid
  else
    WState.mk (pushOpen (st.openL.erase (pick st.openL)) (visit st.grid (pick st.openL)).2)
      (pick st.openL :: st.closed) (visit st.grid (pick st.openL)).1

/-- `walk_set` run for a given number of iterations; once the open set is
empty further iterations change nothing, so a sufficiently large fuel yields
the loop's terminal state. -/
def walk_set_run (pick : List Pos → Pos)
    (visit : (Pos → Int) → Pos → (Pos → Int) × List Pos) : Nat → WState → WState
  | 0, st => st
  | n + 1, st => walk_set_run pick visit n (walk_set_step pick visit st)

/-- bot.py lines 159-172: `border_grid_visit`: a visited inner-border square
with a positive-production environment neighbor is fixed at 0; otherwise the
square's entry becomes the minimum of its current value and
`1 + production + min(neighbor values)` over all four neighbors; the squares
expanded are the mine neighbors. -/
def border_grid_visit (g : GameMap) (myID : Nat) (grid : Pos → Int) (p : Pos) :
    (Pos → Int) × List Pos :=
  let ns := g.posNeighbors p
  let v : Int :=
    if g.is_inner_border myID p = true ∧
        (ns.any (fun n => g.is_environment n && decide (0 < g.productionAt n.1 n.2))) = true
    then 0
    else min (grid p) (1 + (g.productionAt p.1 p.2 : Int) + listMin (ns.map grid))
  (fun q => if q = p then v else grid q, ns.filter (g.is_mine myID))

/-- bot.py lines 175-186: `enemy_grid_visit`: a visited square of another
player is fixed at 0; otherwise the entry becomes the minimum of its current
value and `1 + production + min(neighbor values)`; the squares expanded are
the neighbors that are not impassable (environment with positive strength). -/
def enemy_grid_visit (g : GameMap) (myID : Nat) (grid : Pos → Int) (p : Pos) :
    (Pos → Int) × List Pos :=
  let ns := g.posNeighbors p
  let v : Int :=
    if g.is_other_player myID p = true
    then 0
    else min (grid p) (1 + (g.productionAt p.1 p.2 : Int) + listMin (ns.map grid))
  (fun q => if q = p then v else grid q,
   ns.filter (fun n => !(g.is_environment n && decide (0 < g.strengthAt n.1 n.2))))

/-- A fuel amount sufficient for `walk_set` to reach its terminal state on any
run whose open set stays within the board (proved below): the loop measure
starts below `(width*height + 1)^2`. -/
def walkFuel (g : GameMap) : Nat :=
  (g.width * g.height + 1) * (g.width * g.height + 1)

/-- bot.py lines 202 and 205: the full border-field computation of one turn:
`cells_to_border_grid` initialized by `distance_to_border_grid_init`, then
`bfs(border_grid_set(), border_grid_visit)`. -/
def borderInit (g : GameMap) (myID : Nat) : WState :=
  WState.mk (border_grid_set g myID) [] (distance_to_border_grid_init g myID)

/-- Terminal state of the border-field propagation. -/
def borderRun (g : GameMap) (myID : Nat) : WState :=
  walk_set_run fifoPick (border_grid_visit g myID) (walkFuel g) (borderInit g myID)

/-- bot.py lines 203 and 206: the full enemy-field computation of one turn. -/
def enemyInit (g : GameMap) (myID : Nat) : WState :=
  WState.mk (enemy_grid_set g myID) [] enemy_grid_init

/-- Terminal state of the enemy-field propagation. -/
def enemyRun (g : GameMap) (myID : Nat) : WState :=
  walk_set_run fifoPick (enemy_grid_visit g myID) (walkFuel g) (enemyInit g myID)

/-- The value computed by `heuristic` (bot.py lines 120-129).  Python divides
with float `/`; we carry the exact quotient as an unreduced fraction with
positive denominator, compared by cross-multiplication below — the order is
that of the rational value, which is all `max` ever consumes. -/
structure Frac where
  num : Int
  den : Int
deriving DecidableEq, Repr

/-- Strict comparison of the fraction values (denominators are positive in
every use: a strength that was checked positive, or the literal 1). -/
def Frac.flt (a b : Frac) : Bool :=
  decide (a.num * b.den < b.num * a.den)

/-- bot.py lines 120-129: `heuristic`: for a positive-strength environment
square, `production / strength`; otherwise the summed strength of the
neighbors owned by neither the environment nor us (overkill damage). -/
def heuristic (g : GameMap) (myID : Nat) (square : Square) : Frac :=
  if square.owner = 0 ∧ 0 < square.strength then
    Frac.mk (square.production : Int) (square.strength : Int)
  else
    Frac.mk
      (((g.neighbors square).filter
          (fun n => !(n.owner == 0) && !(n.owner == myID))).map
        (fun n => (n.strength : Int))).sum
      1

/-- bot.py lines 83-91: the generator
`((neighbor, direction) for direction, neighbor in enumerate(neighbors(square))
if neighbor.owner != myID)`. -/
def attackCandidates (g : GameMap) (myID : Nat) (square : Square) : List (Square × Nat) :=
  ((g.neighbors square).enum.filter (fun dn => !(dn.2.owner == myID))).map
    (fun dn => (dn.2, dn.1))

/-- Python `max(iterable, default=None, key=k)` (bot.py lines 83-91): `none`
on an empty iterable, otherwise the first element attaining the maximal key
(`max` keeps the earliest of equals, replacing only on strictly greater). -/
def maxByFirst (k : Square × Nat → Frac) : List (Square × Nat) → Option (Square × Nat)
  | [] => none
  | x :: xs => some (xs.foldl (fun b y => if (k b).flt (k y) then y else b) x)

/-- Python `min` over `(grid value, direction)` pairs (bot.py lines 103-106
and 111-114): tuples compare lexicographically, so ties in the grid value
break toward the smaller direction index. -/
def minPair : List (Int × Nat) → Int × Nat
  | [] => (0, 0)
  | x :: xs => xs.foldl (fun b y => if y.1 < b.1 ∨ (y.1 = b.1 ∧ y.2 < b.2) then y else b) x

/-- bot.py lines 99-117: the tail of `move` after the attack rule has not
fired: the growth rule (`strength < production * 5` stays), then the advance
rule (follow the enemy field when below the sentinel), then the reinforce rule
(follow the border field when not on the border, else stay). -/
def moveRest (g : GameMap) (myID : Nat)
    (cells_to_border_grid cells_to_enemy_grid : Pos → Int) (square : Square) : Move :=
  if square.strength < square.production * 5 then Move.mk square STILL
  else if cells_to_enemy_grid (square.x, square.y) < 9999 then
    Move.mk square
      (minPair ((g.neighbors square).enum.map
        (fun dn => (cells_to_enemy_grid (dn.2.x, dn.2.y), dn.1)))).2
  else if !((g.neighbors square).any (fun n => !(n.owner == myID))) then
    Move.mk square
      (minPair ((g.neighbors square).enum.map
        (fun dn => (cells_to_border_grid (dn.2.x, dn.2.y), dn.1)))).2
  else Move.mk square STILL

/-- bot.py lines 79-117: `move`: a zero-strength square stays; otherwise the
attack rule picks the best non-mine neighbor by `heuristic` and moves onto it
when it is strictly weaker and has positive production; otherwise control
falls through to `moveRest`. -/
def move (g : GameMap) (myID : Nat)
    (cells_to_border_grid cells_to_enemy_grid : Pos → Int) (square : Square) : Move :=
  if square.strength = 0 then Move.mk square STILL
  else
    match maxByFirst (fun t => heuristic g myID t.1) (attackCandidates g myID square) with
    | some (target, direction) =>
      if target.strength < square.strength ∧ 0 < target.production then
        Move.mk square direction
      else moveRest g myID cells_to_border_grid cells_to_enemy_grid square
    | none => moveRest g myID cells_to_border_grid cells_to_enemy_grid square

/-- hlt.py lines 134-136 together with bot.py line 211: the squares of the
board in iteration order. -/
def GameMap.squaresList (g : GameMap) : List Square :=
  (g.boardPosList).map (fun p => g.contents p.2 p.1)

/-- bot.py line 211:
`moves = [move(square) for square in game_map if square.owner == myID]`. -/
def moves (g : GameMap) (myID : Nat)
    (cells_to_border_grid cells_to_enemy_grid : Pos → Int) : List Move :=
  ((g.squaresList).filter (fun s => s.owner == myID)).map
    (move g myID cells_to_border_grid cells_to_enemy_grid)

/-- The 3×3 board of the C5 scenario: self id 1 at (1,1) with strength 10 and
production 2, every other square neutral with strength 5 and production 1. -/
def mapC5 : GameMap :=
  GameMap.mk 3 3
    (fun x y => if x = 1 ∧ y = 1 then 1 else 0)
    (fun x y => if x = 1 ∧ y = 1 then 10 else 5)
    (fun x y => if x = 1 ∧ y = 1 then 2 else 1)

/-- A 3×3 board exercising the border field: self id 1 at (1,1) with strength
10 and production 2, every other square neutral with strength 5 and
production 0. -/
def mapZeroProd : GameMap :=
  GameMap.mk 3 3
    (fun x y => if x = 1 ∧ y = 1 then 1 else 0)
    (fun x y => if x = 1 ∧ y = 1 then 10 else 5)
    (fun x y => if x = 1 ∧ y = 1 then 2 else 0)

/-- A 2×2 board with an opponent square at (0,0) (owner 2, strength 1), an
impassable environment square at (1,0) (strength 5), a mine square at (0,1)
and a combat environment square at (1,1) (strength 0). -/
def mapEnemy : GameMap :=
  GameMap.mk 2 2
    (fun x y => if x = 0 ∧ y = 0 then 2 else if x = 0 ∧ y = 1 then 1 else 0)
    (fun x y => if x = 0 ∧ y = 0 then 1 else if x = 1 ∧ y = 0 then 5 else
      if x = 0 ∧ y = 1 then 7 else 0)
    (fun _ _ => 1)

/-- Structural invariant of a traversal state: the open and closed key lists
are duplicate-free (they model Python dict/set keys) and contain only board
coordinates. -/
def WInv (g : GameMap) (st : WState) : Prop :=
  st.openL.Nodup ∧ st.closed.Nodup ∧
    (∀ p ∈ st.openL, g.onBoard p) ∧ (∀ p ∈ st.closed, g.onBoard p)

/-- Loop measure for `walk_set`: every iteration either removes an open key or
closes a new board cell. -/
def WMeasure (g : GameMap) (st : WState) : Nat :=
  st.openL.length + (g.width * g.height + 1) * (g.width * g.height - st.closed.length)

/-- A duplicate-free list of board coordinates has at most `width * height`
entries. -/
theorem length_le_area (w h : Nat) (l : List Pos) (hnd : l.Nodup)
    (hb : ∀ p ∈ l, p.1 < w ∧ p.2 < h) : l.length ≤ w * h := by
  have hsub : l.toFinset ⊆ (Finset.range w) ×ˢ (Finset.range h) := by
    intro p hp
    rcases hb p (List.mem_toFinset.mp hp) with ⟨h1, h2⟩
    simp [Finset.mem_product, Finset.mem_range, h1, h2]
  calc l.length = l.toFinset.card := (List.toFinset_card_of_nodup hnd).symm
    _ ≤ ((Finset.range w) ×ˢ (Finset.range h)).card := Finset.card_le_card hsub
    _ = w * h := by simp [Finset.card_product]

/-- Membership in the merged open set. -/
theorem mem_pushOpen {q : Pos} : ∀ {new l : List Pos},
    q ∈ pushOpen l new ↔ q ∈ l ∨ q ∈ new := by
  intro new
  induction new with
  | nil => intro l; simp [pushOpen]
  | cons s rest ih =>
    intro l
    by_cases hs : s ∈ l
    · rw [pushOpen, if_pos hs, ih]
      constructor
      · rintro (h | h)
        · exact Or.inl h
        · exact Or.inr (List.mem_cons_of_mem _ h)
      · rintro (h | h)
        · exact Or.inl h
        · rcases List.mem_cons.mp h with rfl | h
          · exact Or.inl hs
          · exact Or.inr h
    · rw [pushOpen, if_neg hs, ih]
      simp only [List.mem_append, List.mem_singleton, List.mem_cons]
      tauto

/-- Merging preserves freedom from duplicates. -/
theorem pushOpen_nodup : ∀ {new l : List Pos}, l.Nodup → (pushOpen l new).Nodup := by
  intro new
  induction new with
  | nil => intro l h; exact h
  | cons s rest ih =>
    intro l h
    by_cases hs : s ∈ l
    · rw [pushOpen, if_pos hs]; exact ih h
    · rw [pushOpen, if_neg hs]
      exact ih (by simp [List.nodup_append, h, hs])

/-- Inserting keeps exactly the old elements plus the new one. -/
theorem mem_insertKeyed {k : Pos → Nat} {x q : Pos} : ∀ {l : List Pos},
    q ∈ insertKeyed k x l ↔ q = x ∨ q ∈ l := by
  intro l
  induction l with
  | nil => simp [insertKeyed]
  | cons y ys ih =>
    rw [insertKeyed]
    by_cases h : k y ≤ k x
    · rw [if_pos h]
      simp only [List.mem_cons, ih]
      tauto
    · rw [if_neg h]
      simp only [List.mem_cons]

/-- Stable sorting keeps exactly the original elements. -/
theorem mem_sortByKey {k : Pos → Nat} {q : Pos} : ∀ {l : List Pos},
    q ∈ sortByKey k l ↔ q ∈ l := by
  intro l
  induction l with
  | nil => simp [sortByKey]
  | cons y ys ih =>
    show q ∈ insertKeyed k y (sortByKey k ys) ↔ _
    rw [mem_insertKeyed]
    simp only [List.mem_cons, ih]

/-- Inserting a fresh element preserves freedom from duplicates. -/
theorem insertKeyed_nodup {k : Pos → Nat} {x : Pos} : ∀ {l : List Pos},
    l.Nodup → x ∉ l → (insertKeyed k x l).Nodup := by
  intro l
  induction l with
  | nil => intro _ _; simp [insertKeyed]
  | cons y ys ih =>
    intro hnd hx
    rcases List.nodup_cons.mp hnd with ⟨hy, hys⟩
    rw [insertKeyed]
    by_cases h : k y ≤ k x
    · rw [if_pos h]
      refine List.nodup_cons.mpr ⟨?_, ih hys (fun hc => hx (List.mem_cons_of_mem _ hc))⟩
      intro hc
      rcases mem_insertKeyed.mp hc with rfl | hc
      · exact hx (List.mem_cons_self _ _)
      · exact hy hc
    · rw [if_neg h]
      refine List.nodup_cons.mpr ⟨?_, hnd⟩
      intro hc
      rcases List.mem_cons.mp hc with rfl | hc
      · exact hx (List.mem_cons_self _ _)
      · exact hx (List.mem_cons_of_mem _ hc)

/-- Stable sorting preserves freedom from duplicates. -/
theorem sortByKey_nodup {k : Pos → Nat} : ∀ {l : List Pos},
    l.Nodup → (sortByKey k l).Nodup := by
  intro l
  induction l with
  | nil => intro _; simp [sortByKey]
  | cons y ys ih =>
    intro hnd
    rcases List.nodup_cons.mp hnd with ⟨hy, hys⟩
    show (insertKeyed k y (sortByKey k ys)).Nodup
    exact insertKeyed_nodup (ih hys) (fun hc => hy (mem_sortByKey.mp hc))

/-- Board iteration produces exactly the board coordinates. -/
theorem mem_boardPosList {g : GameMap} {p : Pos} :
    p ∈ g.boardPosList ↔ g.onBoard p := by
  simp only [GameMap.boardPosList, List.mem_flatten, List.mem_map, List.mem_range,
    GameMap.onBoard]
  constructor
  · rintro ⟨l, ⟨y, hy, rfl⟩, hp⟩
    rcases List.mem_map.mp hp with ⟨x, hx, rfl⟩
    exact ⟨List.mem_range.mp hx, hy⟩
  · rintro ⟨h1, h2⟩
    refine ⟨(List.range g.width).map (fun x => (x, p.2)), ⟨p.2, h2, rfl⟩, ?_⟩
    exact List.mem_map.mpr ⟨p.1, List.mem_range.mpr h1, rfl⟩

/-- Board iteration visits each coordinate once. -/
theorem boardPosList_nodup (g : GameMap) : g.boardPosList.Nodup := by
  rw [GameMap.boardPosList, List.nodup_flatten]
  constructor
  · rintro l hl
    rcases List.mem_map.mp hl with ⟨y, _, rfl⟩
    exact (List.nodup_range _).map (fun a b hab => congrArg Prod.fst hab)
  · rw [List.pairwise_map]
    refine (List.nodup_range g.height).imp ?_
    intro a b hab q hqa hqb
    rcases List.mem_map.mp hqa with ⟨x, _, rfl⟩
    rcases List.mem_map.mp hqb with ⟨x2, _, hq⟩
    exact hab (congrArg Prod.snd hq).symm

/-- One extra iteration is the same as iterating after the run. -/
theorem walk_set_run_succ_right (pick : List Pos → Pos)
    (visit : (Pos → Int) → Pos → (Pos → Int) × List Pos) :
    ∀ (n : Nat) (st : WState), walk_set_run pick visit (n + 1) st =
      walk_set_step pick visit (walk_set_run pick visit n st) := by
  intro n
  induction n with
  | zero => intro st; rfl
  | succ m ih =>
    intro st
    show walk_set_run pick visit (m + 1) (walk_set_step pick visit st) = _
    rw [ih]
    rfl

/-- Runs compose by adding fuel. -/
theorem walk_set_run_add (pick : List Pos → Pos)
    (visit : (Pos → Int) → Pos → (Pos → Int) × List Pos) :
    ∀ (m n : Nat) (st : WState), walk_set_run pick visit (m + n) st =
      walk_set_run pick visit n (walk_set_run pick visit m st) := by
  intro m
  induction m with
  | zero => intro n st; simp [walk_set_run]
  | succ k ih =>
    intro n st
    have : k + 1 + n = (k + n) + 1 := by omega
    rw [this]
    show walk_set_run pick visit (k + n) (walk_set_step pick visit st) = _
    rw [ih]
    rfl

/-- A state with an empty open set is a fixed point of the loop body. -/
theorem walk_set_step_of_empty {pick : List Pos → Pos}
    {visit : (Pos → Int) → Pos → (Pos → Int) × List Pos} {st : WState}
    (h : st.openL = []) : walk_set_step pick visit st = st := by
  rw [walk_set_step, if_pos h]

/-- A state with an empty open set is a fixed point of the whole run. -/
theorem walk_set_run_of_empty {pick : List Pos → Pos}
    {visit : (Pos → Int) → Pos → (Pos → Int) × List Pos} :
    ∀ {n : Nat} {st : WState}, st.openL = [] → walk_set_run pick visit n st = st := by
  intro n
  induction n with
  | zero => intro st _; rfl
  | succ m ih =>
    intro st h
    show walk_set_run pick visit m (walk_set_step pick visit st) = st
    rw [walk_set_step_of_empty h, ih h]

/-- The loop body preserves the structural invariant. -/
theorem walk_set_step_WInv {g : GameMap} {pick : List Pos → Pos}
    {visit : (Pos → Int) → Pos → (Pos → Int) × List Pos} {st : WState}
    (Hpick : ∀ l : List Pos, l ≠ [] → pick l ∈ l)
    (Hvisit : ∀ (gr : Pos → Int) (p q : Pos), q ∈ (visit gr p).2 → g.onBoard q)
    (hinv : WInv g st) : WInv g (walk_set_step pick visit st) := by
  rcases hinv with ⟨ho, hc, hob, hcb⟩
  by_cases hne : st.openL = []
  · rw [walk_set_step_of_empty hne]; exact ⟨ho, hc, hob, hcb⟩
  rw [walk_set_step, if_neg hne]
  have hmem : pick st.openL ∈ st.openL := Hpick _ hne
  by_cases hcl : pick st.openL ∈ st.closed
  · rw [if_pos hcl]
    exact ⟨ho.erase _, hc, fun p hp => hob p (List.erase_subset _ _ hp), hcb⟩
  · rw [if_neg hcl]
    refine ⟨pushOpen_nodup (ho.erase _), List.nodup_cons.mpr ⟨hcl, hc⟩, ?_, ?_⟩
    · intro p hp
      rcases mem_pushOpen.mp hp with hp | hp
      · exact hob p (List.erase_subset _ _ hp)
      · exact Hvisit _ _ _ hp
    · intro p hp
      rcases List.mem_cons.mp hp with rfl | hp
      · exact hob _ hmem
      · exact hcb p hp

/-- While the open set is nonempty, the loop body strictly decreases the
measure. -/
theorem walk_set_step_measure {g : GameMap} {pick : List Pos → Pos}
    {visit : (Pos → Int) → Pos → (Pos → Int) × List Pos} {st : WState}
    (Hpick : ∀ l : List Pos, l ≠ [] → pick l ∈ l)
    (Hvisit : ∀ (gr : Pos → Int) (p q : Pos), q ∈ (visit gr p).2 → g.onBoard q)
    (hinv : WInv g st) (hne : st.openL ≠ []) :
    WMeasure g (walk_set_step pick visit st) < WMeasure g st := by
  rcases hinv with ⟨ho, hc, hob, hcb⟩
  have hmem : pick st.openL ∈ st.openL := Hpick _ hne
  have hlen : (st.openL.erase (pick st.openL)).length = st.openL.length - 1 :=
    List.length_erase_of_mem hmem
  have hpos : 0 < st.openL.length := List.length_pos.mpr hne
  rw [walk_set_step, if_neg hne]
  by_cases hcl : pick st.openL ∈ st.closed
  · rw [if_pos hcl]
    unfold WMeasure
    simp only [hlen]
    omega
  · rw [if_neg hcl]
    unfold WMeasure
    have hclB : st.closed.length + 1 ≤ g.width * g.height := by
      have : (pick st.openL :: st.closed).Nodup := List.nodup_cons.mpr ⟨hcl, hc⟩
      have hb : ∀ p ∈ pick st.openL :: st.closed, p.1 < g.width ∧ p.2 < g.height := by
        intro p hp
        rcases List.mem_cons.mp hp with rfl | hp
        · exact hob _ hmem
        · exact hcb p hp
      have := length_le_area g.width g.height _ this hb
      simpa using this
    have hopB : (pushOpen (st.openL.erase (pick st.openL)) (visit st.grid (pick st.openL)).2).length
        ≤ g.width * g.height := by
      refine length_le_area g.width g.height _ (pushOpen_nodup (ho.erase _)) ?_
      intro p hp
      rcases mem_pushOpen.mp hp with hp | hp
      · exact hob p (List.erase_subset _ _ hp)
      · exact Hvisit _ _ _ hp
    simp only [List.length_cons]
    have hsplit : (g.width * g.height + 1) * (g.width * g.height - st.closed.length)
        = (g.width * g.height + 1) * (g.width * g.height - (st.closed.length + 1))
          + (g.width * g.height + 1) := by
      have h1 : g.width * g.height - st.closed.length
          = (g.width * g.height - (st.closed.length + 1)) + 1 := by omega
      rw [h1, Nat.mul_add, Nat.mul_one]
    omega

/-- With fuel at least the measure, the run reaches an empty open set. -/
theorem walk_set_run_terminates {g : GameMap} {pick : List Pos → Pos}
    {visit : (Pos → Int) → Pos → (Pos → Int) × List Pos}
    (Hpick : ∀ l : List Pos, l ≠ [] → pick l ∈ l)
    (Hvisit : ∀ (gr : Pos → Int) (p q : Pos), q ∈ (visit gr p).2 → g.onBoard q) :
    ∀ (n : Nat) (st : WState), WInv g st → WMeasure g st ≤ n →
      (walk_set_run pick visit n st).openL = [] := by
  intro n
  induction n with
  | zero =>
    intro st hinv hm
    have : st.openL.length = 0 := by
      have : st.openL.length ≤ WMeasure g st := Nat.le_add_right _ _
      omega
    exact List.length_eq_zero.mp this
  | succ m ih =>
    intro st hinv hm
    by_cases hne : st.openL = []
    · rw [walk_set_run_of_empty hne]; exact hne
    · show (walk_set_run pick visit m (walk_set_step pick visit st)).openL = []
      refine ih _ (walk_set_step_WInv Hpick Hvisit hinv) ?_
      have := walk_set_step_measure Hpick Hvisit hinv hne
      omega

/-- Anything in the open or closed set stays in their union. -/
theorem walk_set_step_persist {pick : List Pos → Pos}
    {visit : (Pos → Int) → Pos → (Pos → Int) × List Pos} {st : WState} {q : Pos}
    (h : q ∈ st.openL ∨ q ∈ st.closed) :
    q ∈ (walk_set_step pick visit st).openL ∨ q ∈ (walk_set_step pick visit st).closed := by
  by_cases hne : st.openL = []
  · rw [walk_set_step_of_empty hne]; exact h
  rw [walk_set_step, if_neg hne]
  rcases h with h | h
  · by_cases hq : q = pick st.openL
    · by_cases hcl : pick st.openL ∈ st.closed
      · rw [if_pos hcl]; exact Or.inr (by rw [hq]; exact hcl)
      · rw [if_neg hcl]; exact Or.inr (by rw [hq]; exact List.mem_cons_self _ _)
    · have hq2 : q ∈ st.openL.erase (pick st.openL) :=
        (List.mem_erase_of_ne hq).mpr h
      by_cases hcl : pick st.openL ∈ st.closed
      · rw [if_pos hcl]; exact Or.inl hq2
      · rw [if_neg hcl]; exact Or.inl (mem_pushOpen.mpr (Or.inl hq2))
  · by_cases hcl : pick st.openL ∈ st.closed
    · rw [if_pos hcl]; exact Or.inr h
    · rw [if_neg hcl]; exact Or.inr (List.mem_cons_of_mem _ h)

/-- Open-or-closed membership persists over a whole run. -/
theorem walk_set_run_persist {pick : List Pos → Pos}
    {visit : (Pos → Int) → Pos → (Pos → Int) × List Pos} {q : Pos} :
    ∀ (n : Nat) (st : WState), (q ∈ st.openL ∨ q ∈ st.closed) →
      q ∈ (walk_set_run pick visit n st).openL ∨
        q ∈ (walk_set_run pick visit n st).closed := by
  intro n
  induction n with
  | zero => intro st h; exact h
  | succ m ih =>
    intro st h
    exact ih _ (walk_set_step_persist h)

/-- The closed set only grows. -/
theorem walk_set_step_closed_mono {pick : List Pos → Pos}
    {visit : (Pos → Int) → Pos → (Pos → Int) × List Pos} {st : WState} {q : Pos}
    (h : q ∈ st.closed) : q ∈ (walk_set_step pick visit st).closed := by
  by_cases hne : st.openL = []
  · rw [walk_set_step_of_empty hne]; exact h
  rw [walk_set_step, if_neg hne]
  by_cases hcl : pick st.openL ∈ st.closed
  · rw [if_pos hcl]; exact h
  · rw [if_neg hcl]; exact List.mem_cons_of_mem _ h

/-- A cell closed by one iteration was the picked head of a nonempty open set,
and the iteration ran the visit callback on it. -/
theorem walk_set_step_closes {pick : List Pos → Pos}
    {visit : (Pos → Int) → Pos → (Pos → Int) × List Pos} {st : WState} {q : Pos}
    (h1 : q ∉ st.closed) (h2 : q ∈ (walk_set_step pick visit st).closed) :
    st.openL ≠ [] ∧ pick st.openL = q ∧
      (walk_set_step pick visit st).grid = (visit st.grid q).1 ∧
      (walk_set_step pick visit st).closed = q :: st.closed := by
  by_cases hne : st.openL = []
  · rw [walk_set_step_of_empty hne] at h2; exact absurd h2 h1
  rw [walk_set_step, if_neg hne] at h2 ⊢
  by_cases hcl : pick st.openL ∈ st.closed
  · rw [if_pos hcl] at h2; exact absurd h2 h1
  · rw [if_neg hcl] at h2 ⊢
    rcases List.mem_cons.mp h2 with rfl | h2
    · exact ⟨hne, rfl, rfl, rfl⟩
    · exact absurd h2 h1

/-- If the visit callback only rewrites the entry of the visited cell, the
grid entry of a closed cell never changes again, and the cell stays closed. -/
theorem walk_set_run_stable (pick : List Pos → Pos)
    (visit : (Pos → Int) → Pos → (Pos → Int) × List Pos) {q : Pos}
    (Hupd : ∀ (gr : Pos → Int) (c r : Pos), r ≠ c → (visit gr c).1 r = gr r) :
    ∀ (n : Nat) (st : WState), q ∈ st.closed →
      (walk_set_run pick visit n st).grid q = st.grid q ∧
        q ∈ (walk_set_run pick visit n st).closed := by
  have hstep : ∀ {st : WState}, q ∈ st.closed →
      (walk_set_step pick visit st).grid q = st.grid q ∧
        q ∈ (walk_set_step pick visit st).closed := by
    intro st h
    by_cases hne : st.openL = []
    · rw [walk_set_step_of_empty hne]; exact ⟨rfl, h⟩
    rw [walk_set_step, if_neg hne]
    by_cases hcl : pick st.openL ∈ st.closed
    · rw [if_pos hcl]; exact ⟨rfl, h⟩
    · rw [if_neg hcl]
      have hq : q ≠ pick st.openL := fun hc => hcl (hc ▸ h)
      exact ⟨Hupd _ _ _ hq, List.mem_cons_of_mem _ h⟩
  intro n
  induction n with
  | zero => intro st h; exact ⟨rfl, h⟩
  | succ m ih =>
    intro st h
    rcases hstep h with ⟨hg, hc⟩
    rcases ih _ hc with ⟨hg2, hc2⟩
    refine ⟨?_, hc2⟩
    show (walk_set_run pick visit m (walk_set_step pick visit st)).grid q = st.grid q
    rw [hg2, hg]

/-- Every cell closed by a run was closed at a first definite iteration. -/
theorem walk_set_run_first_close {pick : List Pos → Pos}
    {visit : (Pos → Int) → Pos → (Pos → Int) × List Pos} {q : Pos} :
    ∀ {n : Nat} {st : WState}, q ∈ (walk_set_run pick visit n st).closed →
      q ∈ st.closed ∨ ∃ i : Nat, i < n ∧
        q ∉ (walk_set_run pick visit i st).closed ∧
        q ∈ (walk_set_run pick visit (i + 1) st).closed := by
  intro n
  induction n with
  | zero => intro st h; exact Or.inl h
  | succ m ih =>
    intro st h
    have h2 : q ∈ (walk_set_run pick visit m (walk_set_step pick visit st)).closed := h
    rcases ih h2 with h3 | ⟨i, hi, h4, h5⟩
    · by_cases h0 : q ∈ st.closed
      · exact Or.inl h0
      · exact Or.inr ⟨0, by omega, h0, h3⟩
    · exact Or.inr ⟨i + 1, by omega, h4, h5⟩

/-- The FIFO pop policy picks an element of a nonempty open set. -/
theorem fifoPick_mem : ∀ l : List Pos, l ≠ [] → fifoPick l ∈ l := by
  intro l h
  cases l with
  | nil => exact absurd rfl h
  | cons x xs => exact List.mem_cons_self _ _

/-- The minimum-by-key pop policy picks an element of a nonempty open set. -/
theorem minByPick_mem (key : Pos → Int) : ∀ l : List Pos, l ≠ [] → minByPick key l ∈ l := by
  intro l h
  cases l with
  | nil => exact absurd rfl h
  | cons x xs =>
    show xs.foldl (fun b y => if key y < key b then y else b) x ∈ x :: xs
    have : ∀ (ys : List Pos) (b : Pos), b ∈ x :: xs → (∀ y ∈ ys, y ∈ x :: xs) →
        ys.foldl (fun b y => if key y < key b then y else b) b ∈ x :: xs := by
      intro ys
      induction ys with
      | nil => intro b hb _; exact hb
      | cons z zs ih =>
        intro b hb hz
        refine ih _ ?_ (fun y hy => hz y (List.mem_cons_of_mem _ hy))
        by_cases hlt : key z < key b
        · simp only [if_pos hlt]; exact hz z (List.mem_cons_self _ _)
        · simp only [if_neg hlt]; exact hb
    exact this xs x (List.mem_cons_self _ _) (fun y hy => List.mem_cons_of_mem _ hy)

/-- Full description of one field-building run: the open set empties, every
seed ends closed, and every cell that ends closed was closed at a definite
iteration at which the visit callback wrote its final grid entry. -/
theorem walk_field_spec (g : GameMap) {pick : List Pos → Pos}
    {visit : (Pos → Int) → Pos → (Pos → Int) × List Pos}
    (Hpick : ∀ l : List Pos, l ≠ [] → pick l ∈ l)
    (Hvisit : ∀ (gr : Pos → Int) (p q : Pos), q ∈ (visit gr p).2 → g.onBoard q)
    (Hupd : ∀ (gr : Pos → Int) (c r : Pos), r ≠ c → (visit gr c).1 r = gr r)
    {open0 : List Pos} {grid0 : Pos → Int}
    (hnd : open0.Nodup) (hob : ∀ p ∈ open0, g.onBoard p) :
    (walk_set_run pick visit (walkFuel g) (WState.mk open0 [] grid0)).openL = [] ∧
    (∀ p ∈ open0, p ∈ (walk_set_run pick visit (walkFuel g) (WState.mk open0 [] grid0)).closed) ∧
    (∀ p ∈ (walk_set_run pick visit (walkFuel g) (WState.mk open0 [] grid0)).closed,
      ∃ i : Nat, i < walkFuel g ∧
        p ∉ (walk_set_run pick visit i (WState.mk open0 [] grid0)).closed ∧
        (walk_set_run pick visit i (WState.mk open0 [] grid0)).openL ≠ [] ∧
        pick (walk_set_run pick visit i (WState.mk open0 [] grid0)).openL = p ∧
        (walk_set_run pick visit (walkFuel g) (WState.mk open0 [] grid0)).grid p =
          (visit (walk_set_run pick visit i (WState.mk open0 [] grid0)).grid p).1 p) := by
  have hinv0 : WInv g (WState.mk open0 [] grid0) :=
    ⟨hnd, List.nodup_nil, hob, by intro p hp; exact absurd hp (List.not_mem_nil p)⟩
  have hlen : open0.length ≤ g.width * g.height :=
    length_le_area g.width g.height open0 hnd hob
  have hM0 : WMeasure g (WState.mk open0 [] grid0) ≤ walkFuel g := by
    unfold WMeasure walkFuel
    have hexp : (g.width * g.height + 1) * (g.width * g.height + 1)
        = (g.width * g.height + 1) * g.width * g.height + (g.width * g.height + 1) := by ring
    simp only [List.length_nil, Nat.sub_zero]
    have hexp2 : (g.width * g.height + 1) * g.width * g.height
        = (g.width * g.height + 1) * (g.width * g.height) := by ring
    omega
  have hterm : (walk_set_run pick visit (walkFuel g) (WState.mk open0 [] grid0)).openL = [] :=
    walk_set_run_terminates Hpick Hvisit _ _ hinv0 hM0
  refine ⟨hterm, ?_, ?_⟩
  · intro p hp
    rcases walk_set_run_persist (walkFuel g) (WState.mk open0 [] grid0)
      (Or.inl hp) with h | h
    · rw [hterm] at h; exact absurd h (List.not_mem_nil p)
    · exact h
  · intro p hp
    rcases walk_set_run_first_close hp with h | ⟨i, hi, h1, h2⟩
    · exact absurd h (List.not_mem_nil p)
    · rw [walk_set_run_succ_right] at h2
      rcases walk_set_step_closes h1 h2 with ⟨hne, hpk, hgr, _⟩
      refine ⟨i, hi, h1, hne, hpk, ?_⟩
      have hsplit : walkFuel g = (i + 1) + (walkFuel g - (i + 1)) := by omega
      have hclosed : p ∈ (walk_set_run pick visit (i + 1) (WState.mk open0 [] grid0)).closed := by
        rw [walk_set_run_succ_right]; exact h2
      have := walk_set_run_stable pick visit Hupd (walkFuel g - (i + 1)) _ hclosed
      rcases this with ⟨hg, _⟩
      rw [hsplit, walk_set_run_add]
      rw [hg, walk_set_run_succ_right, hgr]

/-- On a board with positive dimensions, every neighbor coordinate is a board
coordinate. -/
theorem posNeighbors_onBoard {g : GameMap} (hw : 0 < g.width) (hh : 0 < g.height)
    {p q : Pos} (hq : q ∈ g.posNeighbors p) : g.onBoard q := by
  rcases List.mem_map.mp hq with ⟨d, _, rfl⟩
  have hw0 : (g.width : Int) ≠ 0 := by omega
  have hh0 : (g.height : Int) ≠ 0 := by omega
  constructor
  · have h1 : 0 ≤ ((p.1 : Int) + d.1) % (g.width : Int) := Int.emod_nonneg _ hw0
    have h2 : ((p.1 : Int) + d.1) % (g.width : Int) < (g.width : Int) :=
      Int.emod_lt_of_pos _ (by omega)
    omega
  · have h1 : 0 ≤ ((p.2 : Int) + d.2) % (g.height : Int) := Int.emod_nonneg _ hh0
    have h2 : ((p.2 : Int) + d.2) % (g.height : Int) < (g.height : Int) :=
      Int.emod_lt_of_pos _ (by omega)
    omega

/-- The border visit callback leaves every other grid entry unchanged. -/
theorem border_grid_visit_ne (g : GameMap) (myID : Nat) (gr : Pos → Int) (c r : Pos)
    (h : r ≠ c) : (border_grid_visit g myID gr c).1 r = gr r := by
  simp only [border_grid_visit]
  rw [if_neg h]

/-- The grid entry the border visit callback writes for the visited cell. -/
theorem border_grid_visit_self (g : GameMap) (myID : Nat) (gr : Pos → Int) (c : Pos) :
    (border_grid_visit g myID gr c).1 c =
      if g.is_inner_border myID c = true ∧
          ((g.posNeighbors c).any
            (fun n => g.is_environment n && decide (0 < g.productionAt n.1 n.2))) = true
      then 0
      else min (gr c) (1 + (g.productionAt c.1 c.2 : Int) + listMin ((g.posNeighbors c).map gr)) := by
  simp [border_grid_visit]

/-- The cells the border visit callback expands. -/
theorem border_grid_visit_expand (g : GameMap) (myID : Nat) (gr : Pos → Int) (c : Pos) :
    (border_grid_visit g myID gr c).2 = (g.posNeighbors c).filter (g.is_mine myID) := by
  simp only [border_grid_visit]

/-- The enemy visit callback leaves every other grid entry unchanged. -/
theorem enemy_grid_visit_ne (g : GameMap) (myID : Nat) (gr : Pos → Int) (c r : Pos)
    (h : r ≠ c) : (enemy_grid_visit g myID gr c).1 r = gr r := by
  simp only [enemy_grid_visit]
  rw [if_neg h]

/-- The grid entry the enemy visit callback writes for the visited cell. -/
theorem enemy_grid_visit_self (g : GameMap) (myID : Nat) (gr : Pos → Int) (c : Pos) :
    (enemy_grid_visit g myID gr c).1 c =
      if g.is_other_player myID c = true then 0
      else min (gr c) (1 + (g.productionAt c.1 c.2 : Int) + listMin ((g.posNeighbors c).map gr)) := by
  simp [enemy_grid_visit]

/-- The cells the enemy visit callback expands. -/
theorem enemy_grid_visit_expand (g : GameMap) (myID : Nat) (gr : Pos → Int) (c : Pos) :
    (enemy_grid_visit g myID gr c).2 =
      (g.posNeighbors c).filter
        (fun n => !(g.is_environment n && decide (0 < g.strengthAt n.1 n.2))) := by
  simp only [enemy_grid_visit]

/-- The border visit callback expands only board cells. -/
theorem border_visit_onBoard {g : GameMap} (myID : Nat)
    (hw : 0 < g.width) (hh : 0 < g.height) :
    ∀ (gr : Pos → Int) (p q : Pos), q ∈ (border_grid_visit g myID gr p).2 → g.onBoard q := by
  intro gr p q hq
  rw [border_grid_visit_expand] at hq
  exact posNeighbors_onBoard hw hh (List.mem_filter.mp hq).1

/-- The enemy visit callback expands only board cells. -/
theorem enemy_visit_onBoard {g : GameMap} (myID : Nat)
    (hw : 0 < g.width) (hh : 0 < g.height) :
    ∀ (gr : Pos → Int) (p q : Pos), q ∈ (enemy_grid_visit g myID gr p).2 → g.onBoard q := by
  intro gr p q hq
  rw [enemy_grid_visit_expand] at hq
  exact posNeighbors_onBoard hw hh (List.mem_filter.mp hq).1

/-- The border field's seed list is duplicate-free. -/
theorem border_grid_set_nodup (g : GameMap) (myID : Nat) : (border_grid_set g myID).Nodup :=
  sortByKey_nodup ((boardPosList_nodup g).filter _)

/-- The border field's seeds are board cells. -/
theorem border_grid_set_onBoard (g : GameMap) (myID : Nat) :
    ∀ p ∈ border_grid_set g myID, g.onBoard p := by
  intro p hp
  have := mem_sortByKey.mp hp
  exact mem_boardPosList.mp (List.mem_filter.mp this).1

/-- The enemy field's seed list is duplicate-free. -/
theorem enemy_grid_set_nodup (g : GameMap) (myID : Nat) : (enemy_grid_set g myID).Nodup :=
  (boardPosList_nodup g).filter _

/-- The enemy field's seeds are board cells. -/
theorem enemy_grid_set_onBoard (g : GameMap) (myID : Nat) :
    ∀ p ∈ enemy_grid_set g myID, g.onBoard p := by
  intro p hp
  exact mem_boardPosList.mp (List.mem_filter.mp hp).1

/-- An impassable cell (environment with positive strength) is never in the
open set, never closed, and keeps the sentinel grid entry, at every iteration
of the enemy-field traversal. -/
theorem enemy_impassable_invariant (g : GameMap) (myID : Nat) {p : Pos}
    (henv : g.is_environment p = true) (hstr : 0 < g.strengthAt p.1 p.2) :
    ∀ i : Nat,
      p ∉ (walk_set_run fifoPick (enemy_grid_visit g myID) i (enemyInit g myID)).openL ∧
      p ∉ (walk_set_run fifoPick (enemy_grid_visit g myID) i (enemyInit g myID)).closed ∧
      (walk_set_run fifoPick (enemy_grid_visit g myID) i (enemyInit g myID)).grid p = 9999 := by
  intro i
  induction i with
  | zero =>
    refine ⟨?_, ?_, rfl⟩
    · intro hp
      have h2 := (List.mem_filter.mp hp).2
      rw [GameMap.is_other_player] at h2
      rw [GameMap.is_environment] at henv
      simp [henv] at h2
    · intro hp
      exact absurd hp (List.not_mem_nil p)
  | succ m ih =>
    rcases ih with ⟨h1, h2, h3⟩
    rw [walk_set_run_succ_right]
    set st := walk_set_run fifoPick (enemy_grid_visit g myID) m (enemyInit g myID) with hst
    by_cases hne : st.openL = []
    · rw [walk_set_step_of_empty hne]
      exact ⟨h1, h2, h3⟩
    have hmem : fifoPick st.openL ∈ st.openL := fifoPick_mem _ hne
    have hcp : fifoPick st.openL ≠ p := fun hcc => h1 (hcc ▸ hmem)
    rw [walk_set_step, if_neg hne]
    by_cases hcl : fifoPick st.openL ∈ st.closed
    · rw [if_pos hcl]
      exact ⟨fun hp => h1 (List.erase_subset _ _ hp), h2, h3⟩
    · rw [if_neg hcl]
      refine ⟨?_, ?_, ?_⟩
      · intro hp
        rcases mem_pushOpen.mp hp with hp | hp
        · exact h1 (List.erase_subset _ _ hp)
        · rw [enemy_grid_visit_expand] at hp
          have hflt := (List.mem_filter.mp hp).2
          rw [GameMap.is_environment] at henv
          simp [GameMap.is_environment, henv, hstr] at hflt
      · intro hp
        rcases List.mem_cons.mp hp with hp | hp
        · exact hcp hp.symm
        · exact h2 hp
      · show (enemy_grid_visit g myID st.grid (fifoPick st.openL)).1 p = 9999
        rw [enemy_grid_visit_ne _ _ _ _ _ (fun hcc => hcp hcc.symm)]
        exact h3

/-- C2: after the opponent-distance propagation completes, every
opponent-owned cell has field value 0, and every impassable cell (a neutral
cell with positive strength) is never added to the open set at any iteration
of the traversal and retains the sentinel value 9999 in the final field. -/
theorem enemy_field_correct (g : GameMap) (myID : Nat)
    (hw : 0 < g.width) (hh : 0 < g.height) :
    (∀ p : Pos, g.onBoard p → g.is_other_player myID p = true →
      (enemyRun g myID).grid p = 0) ∧
    (∀ p : Pos, g.is_environment p = true → 0 < g.strengthAt p.1 p.2 →
      (∀ i : Nat,
        p ∉ (walk_set_run fifoPick (enemy_grid_visit g myID) i (enemyInit g myID)).openL) ∧
      (enemyRun g myID).grid p = 9999) := by
  constructor
  · intro p hob hop
    obtain ⟨hterm, hseeds, hclose⟩ :=
      walk_field_spec g fifoPick_mem (enemy_visit_onBoard myID hw hh)
        (enemy_grid_visit_ne g myID)
        (enemy_grid_set_nodup g myID) (enemy_grid_set_onBoard g myID)
    have hseed : p ∈ enemy_grid_set g myID :=
      List.mem_filter.mpr ⟨mem_boardPosList.mpr hob, hop⟩
    obtain ⟨i, _, _, _, _, hgrid⟩ := hclose p (hseeds p hseed)
    show (walk_set_run fifoPick (enemy_grid_visit g myID) (walkFuel g)
      (enemyInit g myID)).grid p = 0
    have hinit : enemyInit g myID = WState.mk (enemy_grid_set g myID) [] enemy_grid_init := rfl
    rw [hinit, hgrid, enemy_grid_visit_self, if_pos hop]
  · intro p henv hstr
    refine ⟨fun i => (enemy_impassable_invariant g myID henv hstr i).1, ?_⟩
    show (walk_set_run fifoPick (enemy_grid_visit g myID) (walkFuel g)
      (enemyInit g myID)).grid p = 9999
    exact (enemy_impassable_invariant g myID henv hstr (walkFuel g)).2.2

/-- Witness for `enemy_field_correct`: the 2×2 board `mapEnemy` with self id 1
has an opponent cell at (0,0) and an impassable environment cell at (1,0). -/
theorem enemy_field_correct_witness :
    0 < mapEnemy.width ∧ 0 < mapEnemy.height ∧
    ((∀ p : Pos, mapEnemy.onBoard p → mapEnemy.is_other_player 1 p = true →
      (enemyRun mapEnemy 1).grid p = 0) ∧
    (∀ p : Pos, mapEnemy.is_environment p = true → 0 < mapEnemy.strengthAt p.1 p.2 →
      (∀ i : Nat,
        p ∉ (walk_set_run fifoPick (enemy_grid_visit mapEnemy 1) i (enemyInit mapEnemy 1)).openL) ∧
      (enemyRun mapEnemy 1).grid p = 9999)) :=
  ⟨by decide, by decide, enemy_field_correct mapEnemy 1 (by decide) (by decide)⟩

/-- C1 (amended): after the frontier-distance propagation completes, every
inward-border self-owned cell adjacent to a positive-production environment
cell has field value exactly 0; every other cell closed by the run received,
at the iteration that closed it, the value
`min(current entry, 1 + own production + min over ALL four neighbors' current
entries)` — the minimum ranges over every neighbor's grid entry at closing
time (closed self-owned neighbors carry their computed value, unvisited
self-owned or positive-production cells the sentinel 9999, and non-self
zero-production cells 0), not merely over closed self-owned neighbors. -/
theorem border_field_correct (g : GameMap) (myID : Nat)
    (hw : 0 < g.width) (hh : 0 < g.height) :
    (∀ p : Pos, g.onBoard p → g.is_inner_border myID p = true →
      ((g.posNeighbors p).any
        (fun n => g.is_environment n && decide (0 < g.productionAt n.1 n.2))) = true →
      (borderRun g myID).grid p = 0) ∧
    (∀ p : Pos, p ∈ (borderRun g myID).closed →
      ¬(g.is_inner_border myID p = true ∧
        ((g.posNeighbors p).any
          (fun n => g.is_environment n && decide (0 < g.productionAt n.1 n.2))) = true) →
      ∃ i : Nat, i < walkFuel g ∧
        p ∉ (walk_set_run fifoPick (border_grid_visit g myID) i (borderInit g myID)).closed ∧
        (walk_set_run fifoPick (border_grid_visit g myID) i (borderInit g myID)).openL ≠ [] ∧
        fifoPick (walk_set_run fifoPick (border_grid_visit g myID) i (borderInit g myID)).openL = p ∧
        (borderRun g myID).grid p =
          min ((walk_set_run fifoPick (border_grid_visit g myID) i (borderInit g myID)).grid p)
            (1 + (g.productionAt p.1 p.2 : Int) +
              listMin ((g.posNeighbors p).map
                (walk_set_run fifoPick (border_grid_visit g myID) i (borderInit g myID)).grid))) := by
  have hinit : borderInit g myID
      = WState.mk (border_grid_set g myID) [] (distance_to_border_grid_init g myID) := rfl
  obtain ⟨hterm, hseeds, hclose⟩ :=
    walk_field_spec g fifoPick_mem (border_visit_onBoard myID hw hh)
      (border_grid_visit_ne g myID)
      (border_grid_set_nodup g myID) (border_grid_set_onBoard g myID)
  constructor
  · intro p hob hib hany
    have hseed : p ∈ border_grid_set g myID :=
      mem_sortByKey.mpr (List.mem_filter.mpr ⟨mem_boardPosList.mpr hob, hib⟩)
    obtain ⟨i, _, _, _, _, hgrid⟩ := hclose p (hseeds p hseed)
    show (walk_set_run fifoPick (border_grid_visit g myID) (walkFuel g)
      (borderInit g myID)).grid p = 0
    rw [hinit, hgrid, border_grid_visit_self, if_pos ⟨hib, hany⟩]
  · intro p hp hcond
    rw [borderRun, hinit] at hp
    obtain ⟨i, hi, hncl, hne, hpk, hgrid⟩ := hclose p hp
    refine ⟨i, hi, ?_, ?_, ?_, ?_⟩
    · rw [hinit]; exact hncl
    · rw [hinit]; exact hne
    · rw [hinit]; exact hpk
    · show (walk_set_run fifoPick (border_grid_visit g myID) (walkFuel g)
        (borderInit g myID)).grid p = _
      rw [hinit, hgrid, border_grid_visit_self, if_neg hcond]

/-- Witness for `border_field_correct`: the 3×3 board `mapC5` with self id 1,
whose lone self cell at (1,1) is an inward-border seed adjacent to
positive-production environment cells, hence ends at value 0. -/
theorem border_field_correct_witness :
    0 < mapC5.width ∧ 0 < mapC5.height ∧
    mapC5.onBoard (1, 1) ∧ mapC5.is_inner_border 1 (1, 1) = true ∧
    ((mapC5.posNeighbors (1, 1)).any
      (fun n => mapC5.is_environment n && decide (0 < mapC5.productionAt n.1 n.2))) = true ∧
    (borderRun mapC5 1).grid (1, 1) = 0 :=
  ⟨by decide, by decide, by decide, by decide, by decide,
    (border_field_correct mapC5 1 (by decide) (by decide)).1 (1, 1)
      (by decide) (by decide) (by decide)⟩

/-- Counterexample to C1 as stated: on the 3×3 board `mapZeroProd` (self id 1,
lone self cell at (1,1) with production 2, all other cells neutral with
production 0), the cell (1,1) is closed by the run, is not a 0-seed, and has
no self-owned neighbor at all — so the claimed value
`1 + production + min over closed self-owned neighbors` must fall back to the
sentinel 9999 — yet the computed field value is 3 = 1 + 2 + 0, where the 0 is
the initialization value of a neutral zero-production neighbor. -/
theorem border_field_claim_counterexample :
    ((1, 1) : Pos) ∈ (borderRun mapZeroProd 1).closed ∧
    mapZeroProd.is_inner_border 1 (1, 1) = true ∧
    ((mapZeroProd.posNeighbors (1, 1)).any
      (fun n => mapZeroProd.is_environment n && decide (0 < mapZeroProd.productionAt n.1 n.2)))
      = false ∧
    ((mapZeroProd.posNeighbors (1, 1)).all (fun n => !(mapZeroProd.is_mine 1 n))) = true ∧
    (borderRun mapZeroProd 1).grid (1, 1) = 3 ∧
    ¬(borderRun mapZeroProd 1).grid (1, 1) = 9999 := by
  decide

/-- The whole run preserves the structural invariant. -/
theorem walk_set_run_WInv {g : GameMap} {pick : List Pos → Pos}
    {visit : (Pos → Int) → Pos → (Pos → Int) × List Pos}
    (Hpick : ∀ l : List Pos, l ≠ [] → pick l ∈ l)
    (Hvisit : ∀ (gr : Pos → Int) (p q : Pos), q ∈ (visit gr p).2 → g.onBoard q) :
    ∀ (n : Nat) (st : WState), WInv g st → WInv g (walk_set_run pick visit n st) := by
  intro n
  induction n with
  | zero => intro st h; exact h
  | succ m ih =>
    intro st h
    exact ih _ (walk_set_step_WInv Hpick Hvisit h)

/-- C3: for every initial open set of board cells and every visit function
whose returned cells lie on the board, the generic traversal `walk_set` —
under any pop policy that picks an element of the nonempty open set, which
covers both the FIFO policy `fifoPick` of `bfs` (see `fifoPick_mem`) and the
minimum-by-key policy `minByPick` of `dijkstras` (see `minByPick_mem`) —
terminates with an empty open set within `walkFuel` iterations, closes each
cell at most once (the closed list, which records exactly the cells on which
the visit callback was invoked, one invocation per closing step of
`walk_set_step`, is duplicate-free), and performs at most `width * height`
dequeue-and-visit steps. -/
theorem walk_set_generic_guarantees (g : GameMap) (pick : List Pos → Pos)
    (visit : (Pos → Int) → Pos → (Pos → Int) × List Pos)
    (open0 : List Pos) (grid0 : Pos → Int)
    (Hpick : ∀ l : List Pos, l ≠ [] → pick l ∈ l)
    (Hvisit : ∀ (gr : Pos → Int) (p q : Pos), q ∈ (visit gr p).2 → g.onBoard q)
    (Hopen : ∀ p ∈ open0, g.onBoard p) (Hnd : open0.Nodup) :
    (walk_set_run pick visit (walkFuel g) (WState.mk open0 [] grid0)).openL = [] ∧
    (walk_set_run pick visit (walkFuel g) (WState.mk open0 [] grid0)).closed.Nodup ∧
    (walk_set_run pick visit (walkFuel g) (WState.mk open0 [] grid0)).closed.length
      ≤ g.width * g.height := by
  have hinv0 : WInv g (WState.mk open0 [] grid0) :=
    ⟨Hnd, List.nodup_nil, Hopen, by intro p hp; exact absurd hp (List.not_mem_nil p)⟩
  have hlen : open0.length ≤ g.width * g.height :=
    length_le_area g.width g.height open0 Hnd Hopen
  have hM0 : WMeasure g (WState.mk open0 [] grid0) ≤ walkFuel g := by
    unfold WMeasure walkFuel
    have hexp : (g.width * g.height + 1) * (g.width * g.height + 1)
        = (g.width * g.height + 1) * (g.width * g.height) + (g.width * g.height + 1) := by ring
    simp only [List.length_nil, Nat.sub_zero]
    omega
  obtain ⟨_, hcnd, _, hcob⟩ := walk_set_run_WInv Hpick Hvisit (walkFuel g) _ hinv0
  exact ⟨walk_set_run_terminates Hpick Hvisit _ _ hinv0 hM0, hcnd,
    length_le_area g.width g.height _ hcnd hcob⟩

/-- Witness for `walk_set_generic_guarantees`: the enemy-field run on the
concrete 2×2 board `mapEnemy` under the FIFO policy. -/
theorem walk_set_generic_guarantees_witness :
    (walk_set_run fifoPick (enemy_grid_visit mapEnemy 1) (walkFuel mapEnemy)
      (WState.mk (enemy_grid_set mapEnemy 1) [] enemy_grid_init)).openL = [] ∧
    (walk_set_run fifoPick (enemy_grid_visit mapEnemy 1) (walkFuel mapEnemy)
      (WState.mk (enemy_grid_set mapEnemy 1) [] enemy_grid_init)).closed.Nodup ∧
    (walk_set_run fifoPick (enemy_grid_visit mapEnemy 1) (walkFuel mapEnemy)
      (WState.mk (enemy_grid_set mapEnemy 1) [] enemy_grid_init)).closed.length
      ≤ mapEnemy.width * mapEnemy.height :=
  walk_set_generic_guarantees mapEnemy fifoPick (enemy_grid_visit mapEnemy 1)
    (enemy_grid_set mapEnemy 1) enemy_grid_init
    fifoPick_mem (enemy_visit_onBoard 1 (by decide) (by decide))
    (by decide) (by decide)

/-- C4: the move policy is total — every branch of `move` returns a `Move`
carrying the acting square — and the per-turn orchestration emits exactly one
move per self-owned cell, in board order, skipping none. -/
theorem move_policy_total (g : GameMap) (myID : Nat)
    (cells_to_border_grid cells_to_enemy_grid : Pos → Int) :
    (∀ square : Square,
      (move g myID cells_to_border_grid cells_to_enemy_grid square).square = square) ∧
    (moves g myID cells_to_border_grid cells_to_enemy_grid).map Move.square
      = (g.squaresList).filter (fun s => s.owner == myID) ∧
    (moves g myID cells_to_border_grid cells_to_enemy_grid).length
      = ((g.squaresList).filter (fun s => s.owner == myID)).length := by
  have hrest : ∀ square : Square,
      (moveRest g myID cells_to_border_grid cells_to_enemy_grid square).square = square := by
    intro square
    unfold moveRest
    split_ifs <;> rfl
  have hmove : ∀ square : Square,
      (move g myID cells_to_border_grid cells_to_enemy_grid square).square = square := by
    intro square
    unfold move
    split
    · rfl
    · split
      · split
        · rfl
        · exact hrest square
      · exact hrest square
  refine ⟨hmove, ?_, ?_⟩
  · rw [moves, List.map_map]
    have : ∀ s ∈ (g.squaresList).filter (fun s => s.owner == myID),
        (Move.square ∘ move g myID cells_to_border_grid cells_to_enemy_grid) s = s := by
      intro s _
      exact hmove s
    rw [List.map_congr_left this]
    exact List.map_id _
  · rw [moves, List.length_map]

/-- C5: on the 3×3 board `mapC5` (self id 1, lone self cell at (1,1) with
strength 10 and production 2, eight neutral cells of strength 5 and
production 1) the attack rule fires: all four candidate neighbors tie at
heuristic value 1/5, the tie breaks to the first enumeration index (North),
the target is weaker than the acting cell and has positive production, so the
policy returns a move North. -/
theorem attack_rule_scenario :
    move mapC5 1 (borderRun mapC5 1).grid (enemyRun mapC5 1).grid (mapC5.contents 1 1)
      = Move.mk (mapC5.contents 1 1) NORTH := by
  decide

/-- C8: the internal-to-external direction translation is `(d + 1) % 5`, and
composing with the spec's inverse table is the identity on `{0..4}`. -/
theorem direction_translation_round_trip :
    ∀ d : Nat, d < 5 → translate_cardinal d = (d + 1) % 5 ∧
      external_to_internal (translate_cardinal d) = d := by
  decide

/-- Witness for `direction_translation_round_trip` at `d = 3` (West). -/
theorem direction_translation_round_trip_witness :
    (3 : Nat) < 5 ∧ (translate_cardinal 3 = (3 + 1) % 5 ∧
      external_to_internal (translate_cardinal 3) = 3) :=
  ⟨by decide, direction_translation_round_trip 3 (by decide)⟩

/-- C9: the dataclass equality and hash key of `Square` depend only on the
coordinates: two squares with the same `x` and `y` compare equal and have the
same hash key whatever their owner, strength and production fields are. -/
theorem square_key_coordinate_only :
    ∀ x y o1 s1 p1 o2 s2 p2 : Nat,
      Square.pyEq (Square.mk x y o1 s1 p1) (Square.mk x y o2 s2 p2) = true ∧
      Square.pyHashKey (Square.mk x y o1 s1 p1)
        = Square.pyHashKey (Square.mk x y o2 s2 p2) := by
  intro x y o1 s1 p1 o2 s2 p2
  exact ⟨by simp [Square.pyEq], rfl⟩

/-- C10: a self-owned square of strength 0 makes `move` return a Stay move
immediately, whatever the board, the fields, or the neighbors are — before
the attack, growth, advance or reinforce rules are consulted. -/
theorem zero_strength_short_circuit (g : GameMap) (myID : Nat)
    (cells_to_border_grid cells_to_enemy_grid : Pos → Int) (square : Square)
    (h : square.strength = 0) :
    move g myID cells_to_border_grid cells_to_enemy_grid square = Move.mk square STILL := by
  unfold move
  rw [if_pos h]

/-- Witness for `zero_strength_short_circuit`: the combat environment square
at (1,1) of `mapEnemy` has strength 0, so it stays. -/
theorem zero_strength_short_circuit_witness :
    (mapEnemy.contents 1 1).strength = 0 ∧
    move mapEnemy 1 (borderRun mapEnemy 1).grid (enemyRun mapEnemy 1).grid
      (mapEnemy.contents 1 1) = Move.mk (mapEnemy.contents 1 1) STILL :=
  ⟨by decide, zero_strength_short_circuit mapEnemy 1 (borderRun mapEnemy 1).grid
    (enemyRun mapEnemy 1).grid (mapEnemy.contents 1 1) (by decide)⟩

/-- C6: the toroidal distance is symmetric, is zero exactly for equal
coordinates, and never exceeds `⌊width/2⌋ + ⌊height/2⌋`, for any two squares
lying on a board of positive dimensions. -/
theorem get_distance_props (g : GameMap) (a b : Square)
    (hw : 0 < g.width) (hh : 0 < g.height)
    (hax : a.x < g.width) (hay : a.y < g.height)
    (hbx : b.x < g.width) (hby : b.y < g.height) :
    g.get_distance a b = g.get_distance b a ∧
    (g.get_distance a b = 0 ↔ (a.x = b.x ∧ a.y = b.y)) ∧
    g.get_distance a b ≤ ((g.width / 2 : Nat) : Int) + ((g.height / 2 : Nat) : Int) := by
  refine ⟨?_, ?_, ?_⟩ <;> (unfold GameMap.get_distance; omega)

/-- Witness for `get_distance_props`: the squares at (1,0) and (2,2) of the
3×3 board `mapC5`. -/
theorem get_distance_props_witness :
    0 < mapC5.width ∧ 0 < mapC5.height ∧
    (mapC5.contents 0 1).x < mapC5.width ∧ (mapC5.contents 0 1).y < mapC5.height ∧
    (mapC5.contents 2 2).x < mapC5.width ∧ (mapC5.contents 2 2).y < mapC5.height ∧
    (mapC5.get_distance (mapC5.contents 0 1) (mapC5.contents 2 2)
        = mapC5.get_distance (mapC5.contents 2 2) (mapC5.contents 0 1) ∧
      (mapC5.get_distance (mapC5.contents 0 1) (mapC5.contents 2 2) = 0 ↔
        ((mapC5.contents 0 1).x = (mapC5.contents 2 2).x ∧
          (mapC5.contents 0 1).y = (mapC5.contents 2 2).y)) ∧
      mapC5.get_distance (mapC5.contents 0 1) (mapC5.contents 2 2)
        ≤ ((mapC5.width / 2 : Nat) : Int) + ((mapC5.height / 2 : Nat) : Int)) :=
  ⟨by decide, by decide, by decide, by decide, by decide, by decide,
    get_distance_props mapC5 (mapC5.contents 0 1) (mapC5.contents 2 2)
      (by decide) (by decide) (by decide) (by decide) (by decide) (by decide)⟩

/-- Wrapping an in-range coordinate is the identity. -/
theorem toNat_emod_self (a m : Nat) (h : a < m) :
    (((a : Int)) % ((m : Int))).toNat = a := by
  rw [Int.emod_eq_of_lt (by omega) (by omega)]
  omega

/-- Wrapping an incremented in-range coordinate. -/
theorem toNat_emod_succ (a m : Nat) (h : a < m) :
    ((((a : Int)) + 1) % ((m : Int))).toNat = if a + 1 = m then 0 else a + 1 := by
  by_cases hc : a + 1 = m
  · have h1 : ((a : Int)) + 1 = ((m : Int)) := by omega
    rw [h1, Int.emod_self, if_pos hc]
    rfl
  · rw [Int.emod_eq_of_lt (by omega) (by omega), if_neg hc]
    omega

/-- Wrapping a decremented in-range coordinate. -/
theorem toNat_emod_pred (a m : Nat) (h : a < m) :
    ((((a : Int)) + (-1)) % ((m : Int))).toNat = if a = 0 then m - 1 else a - 1 := by
  by_cases hc : a = 0
  · subst hc
    have h1 : ((-1 : Int) + ((m : Int)) * 1) % ((m : Int))
        = (-1 : Int) % ((m : Int)) := Int.add_mul_emod_self_left _ _ _
    have h2 : ((-1 : Int) + ((m : Int)) * 1) = ((m : Int)) - 1 := by ring
    rw [h2] at h1
    have h3 : (((0 : Nat) : Int)) + (-1) = (-1 : Int) := by norm_num
    rw [h3, ← h1, Int.emod_eq_of_lt (by omega) (by omega), if_pos rfl]
    omega
  · rw [Int.emod_eq_of_lt (by omega) (by omega), if_neg hc]
    omega

/-- Two squares built with different coordinates are different. -/
theorem square_mk_ne (x1 y1 o1 s1 p1 x2 y2 o2 s2 p2 : Nat)
    (h : x1 ≠ x2 ∨ y1 ≠ y2) :
    Square.mk x1 y1 o1 s1 p1 ≠ Square.mk x2 y2 o2 s2 p2 := by
  intro he
  injection he with e1 e2 e3 e4 e5
  rcases h with h | h
  · exact h e1
  · exact h e2

/-- C7: on any board with both dimensions at least 3, `neighbors` returns
exactly the four cells `get_target` produces for the direction indices North,
East, South, West, in that order; the four cells are pairwise distinct; and
`get_target` with Stay returns the square itself. -/
theorem neighbors_props (g : GameMap) (square : Square)
    (hw : 3 ≤ g.width) (hh : 3 ≤ g.height)
    (hx : square.x < g.width) (hy : square.y < g.height)
    (hsq : square = g.contents square.y square.x) :
    g.neighbors square =
      [g.get_target square NORTH, g.get_target square EAST,
       g.get_target square SOUTH, g.get_target square WEST] ∧
    (g.neighbors square).length = 4 ∧
    (g.neighbors square).Pairwise (fun s1 s2 => s1 ≠ s2) ∧
    g.get_target square STILL = square := by
  have hNy := toNat_emod_pred square.y g.height hy
  have hSy := toNat_emod_succ square.y g.height hy
  have hEx := toNat_emod_succ square.x g.width hx
  have hWx := toNat_emod_pred square.x g.width hx
  have hx0 : ((((square.x : Int)) + 0) % ((g.width : Int))).toNat = square.x := by
    rw [add_zero]
    exact toNat_emod_self _ _ hx
  have hy0 : ((((square.y : Int)) + 0) % ((g.height : Int))).toNat = square.y := by
    rw [add_zero]
    exact toNat_emod_self _ _ hy
  refine ⟨rfl, rfl, ?_, ?_⟩
  · show List.Pairwise _
      [g.wrapSquare ((square.x : Int) + 0) ((square.y : Int) + (-1)),
       g.wrapSquare ((square.x : Int) + 1) ((square.y : Int) + 0),
       g.wrapSquare ((square.x : Int) + 0) ((square.y : Int) + 1),
       g.wrapSquare ((square.x : Int) + (-1)) ((square.y : Int) + 0)]
    unfold GameMap.wrapSquare GameMap.contents
    rw [hNy, hSy, hEx, hWx, hx0, hy0]
    simp only [List.pairwise_cons, List.mem_cons, List.mem_singleton, List.not_mem_nil,
      List.Pairwise.nil]
    refine ⟨?_, ?_, ?_⟩
    · intro b hb
      rcases hb with rfl | rfl | rfl | hb
      · exact square_mk_ne _ _ _ _ _ _ _ _ _ _ (by split_ifs <;> omega)
      · exact square_mk_ne _ _ _ _ _ _ _ _ _ _ (by split_ifs <;> omega)
      · exact square_mk_ne _ _ _ _ _ _ _ _ _ _ (by split_ifs <;> omega)
      · exact hb.elim
    · intro b hb
      rcases hb with rfl | rfl | hb
      · exact square_mk_ne _ _ _ _ _ _ _ _ _ _ (by split_ifs <;> omega)
      · exact square_mk_ne _ _ _ _ _ _ _ _ _ _ (by split_ifs <;> omega)
      · exact hb.elim
    · refine ⟨?_, ?_⟩
      · intro b hb
        rcases hb with rfl | hb
        · exact square_mk_ne _ _ _ _ _ _ _ _ _ _ (by split_ifs <;> omega)
        · exact hb.elim
      · simp
  · show g.wrapSquare ((square.x : Int) + 0) ((square.y : Int) + 0) = square
    unfold GameMap.wrapSquare
    rw [hx0, hy0]
    exact hsq.symm

/-- Witness for `neighbors_props`: the self square at (1,1) of the 3×3 board
`mapC5`. -/
theorem neighbors_props_witness :
    3 ≤ mapC5.width ∧ 3 ≤ mapC5.height ∧
    (mapC5.contents 1 1).x < mapC5.width ∧ (mapC5.contents 1 1).y < mapC5.height ∧
    mapC5.contents 1 1 = mapC5.contents (mapC5.contents 1 1).y (mapC5.contents 1 1).x ∧
    (mapC5.neighbors (mapC5.contents 1 1) =
      [mapC5.get_target (mapC5.contents 1 1) NORTH, mapC5.get_target (mapC5.contents 1 1) EAST,
       mapC5.get_target (mapC5.contents 1 1) SOUTH, mapC5.get_target (mapC5.contents 1 1) WEST] ∧
    (mapC5.neighbors (mapC5.contents 1 1)).length = 4 ∧
    (mapC5.neighbors (mapC5.contents 1 1)).Pairwise (fun s1 s2 => s1 ≠ s2) ∧
    mapC5.get_target (mapC5.contents 1 1) STILL = mapC5.contents 1 1) :=
  ⟨by decide, by decide, by decide, by decide, by decide,
    neighbors_props mapC5 (mapC5.contents 1 1)
      (by decide) (by decide) (by decide) (by decide) (by decide)⟩

end HaliteBot
